import Mathlib

/-!
Verification of the xv6 forkbomb-lab shell (src/user/sh.c).

This development shallowly embeds the shell's tokenizer and
recursive-descent parser (`gettoken`/`peek`,
`parseline`/`parsepipe`/`parseexec`/`parseblock`/`parseredirs`/`parsecmd`),
its background-job table (`add_job`/`remove_job`/`is_bg_job`/
`reap_background_job`/`wait_for_foreground`), and the interpreter-process
effects of `runcmd` and the `main` loop (the file-descriptor state of
descriptors 0 and 1, and in-process exits), and proves the
specification's claims about them.

Modelling conventions:
* the input line is a `List Char`; `gettoken` is embedded character by
  character; the recursive-descent parser is embedded over the token
  stream it produces.  The C parser's `peek`/`gettoken` pairs inspect
  and then consume the next token, which over a token list is
  inspecting and popping the head; `peek`'s character sets correspond
  one-to-one to token kinds (the set `"<>"` matches both `>` and `>>`,
  since both begin with `>`);
* `parseexec` mutates the inner `execcmd`'s argv through an aliasing
  pointer while redirections wrap the node; this is modelled by
  collecting the argv and the redirection list separately and building
  the wrapped node when the loop finishes (`applyRedirs`), which yields
  the identical tree;
* open-mode flag words (`kernel/fcntl.h` is not part of this
  repository's sources) are modelled as a record of the flag bits sh.c
  names - `O_WRONLY`, `O_CREATE`, `O_TRUNC` - plus an `append` bit so
  that the specification's append claim is statable; sh.c never names
  an append flag;
* the fallible host call `open` is an oracle parameter; `fork`/`exec`
  and the spawned children are modelled through their effect on the
  interpreter's own process (which is what the claims concern), and
  through explicit wait-result streams for the reaping protocol;
* machine integers hold small values throughout (pids, descriptors,
  argument counts), so `Nat` is used; no overflow is reachable.
-/

/-- Token kinds produced by `gettoken` (sh.c:468-511).  The C function
returns the classifying character: the symbol itself for one-character
symbols, `'+'` for `>>`, `'a'` for a word, and `0` at end of input. -/
inductive Tok where
  | pipe | lparen | rparen | semi | amp | lt | gt | gtgt
  | word (w : List Char)
  | teof
deriving Repr, DecidableEq

/-- `char whitespace[] = " \t\r\n\v";` (sh.c:465). -/
def isWs (c : Char) : Bool :=
  c = ' ' || c = '\t' || c = '\r' || c = '\n' || c = Char.ofNat 11

/-- `char symbols[] = "<|>&;()";` (sh.c:466). -/
def isSym (c : Char) : Bool :=
  c = '<' || c = '|' || c = '>' || c = '&' || c = ';' || c = '(' || c = ')'

/-- The whitespace-skipping loops of `gettoken` and `peek`. -/
def skipWs : List Char → List Char
  | [] => []
  | c :: cs => if isWs c then skipWs cs else c :: cs

/-- The word-scanning loop of `gettoken` (sh.c:500-501): consume
characters until whitespace or a symbol character. -/
def takeWord : List Char → List Char × List Char
  | [] => ([], [])
  | c :: cs =>
    if !isWs c && !isSym c then
      match takeWord cs with
      | (w, r) => (c :: w, r)
    else ([], c :: cs)

/-- `gettoken` (sh.c:468-511): skip leading whitespace, classify the next
token, consume it, and skip trailing whitespace.  Returns the token and
the remaining input. -/
def gettoken (s : List Char) : Tok × List Char :=
  match skipWs s with
  | [] => (Tok.teof, [])
  | c :: r =>
    if c = '|' then (Tok.pipe, skipWs r)
    else if c = '(' then (Tok.lparen, skipWs r)
    else if c = ')' then (Tok.rparen, skipWs r)
    else if c = ';' then (Tok.semi, skipWs r)
    else if c = '&' then (Tok.amp, skipWs r)
    else if c = '<' then (Tok.lt, skipWs r)
    else if c = '>' then
      match r with
      | '>' :: r2 => (Tok.gtgt, skipWs r2)
      | _ => (Tok.gt, skipWs r)
    else
      match takeWord (c :: r) with
      | (w, r2) => (Tok.word w, skipWs r2)

/-- The token stream of a line: `gettoken` iterated to end of input.
Each token consumes at least one character, so `s.length + 1` fuel
always suffices. -/
def tokenize : Nat → List Char → List Tok
  | 0, _ => []
  | fuel + 1, s =>
    match gettoken s with
    | (Tok.teof, _) => []
    | (t, r) => t :: tokenize fuel r

/-- `#define MAXARGS 10` (sh.c:15): the size of the `argv` array of a
`struct execcmd`. -/
def MAXARGS : Nat := 10

/-- `NPROC`, the size of the `bg_jobs` array (sh.c:59).  Modelled from
the spec: `kernel/param.h` is not among the repository's sources; the
spec describes the table as "a fixed-capacity set sized to the maximum
concurrent process count the host supports", which in stock xv6 is 64.
No claim depends on the numeric value. -/
def NPROC : Nat := 64

/-- Open-mode flags (the `mode` field of `struct redircmd`).  sh.c
builds modes from `O_RDONLY`, `O_WRONLY`, `O_CREATE`, `O_TRUNC`
(`kernel/fcntl.h`); the record has one bit per flag named by sh.c plus
an `append` bit, which sh.c never sets (it names no append flag), so
that the spec's claim about an append flag can be stated. -/
structure OMode where
  write : Bool
  create : Bool
  trunc : Bool
  append : Bool
deriving Repr, DecidableEq

/-- `O_RDONLY`: no write, create, truncate or append bit. -/
def O_RDONLY : OMode := ⟨false, false, false, false⟩

/-- `O_WRONLY|O_CREATE|O_TRUNC`, the mode for `>` (sh.c:592). -/
def mode_gt : OMode := ⟨true, true, true, false⟩

/-- `O_WRONLY|O_CREATE`, the mode for `>>` (sh.c:595). -/
def mode_gtgt : OMode := ⟨true, true, false, false⟩

/-- The command tree (`struct cmd` and its variants, sh.c:17-52).
Constructors are named after the C constructor functions
(sh.c:398-461).  `execcmd` carries the argv words and the `back` flag
(sh.c:25); `redircmd` drops the `efile` end-pointer, a finalization
artifact of in-place string scanning. -/
inductive Cmd where
  | execcmd (argv : List (List Char)) (back : Bool)
  | redircmd (cmd : Cmd) (file : List Char) (mode : OMode) (fd : Nat)
  | pipecmd (left right : Cmd)
  | listcmd (left right : Cmd)
  | backcmd (cmd : Cmd)
deriving Repr, DecidableEq

/-- One parsed redirection: the `(file, mode, fd)` triple handed to
`redircmd` by `parseredirs` (sh.c:587-597). -/
structure Redir where
  file : List Char
  mode : OMode
  fd : Nat
deriving Repr, DecidableEq

/-- Wrap a command in redirections in encounter order (the first
redirection found wraps the command innermost, as in the C code where
each `redircmd` call wraps the previously built node). -/
def applyRedirs (c : Cmd) : List Redir → Cmd
  | [] => c
  | r :: rs => applyRedirs (Cmd.redircmd c r.file r.mode r.fd) rs

/-- `peek(ps, es, "|)&;")` of the `parseexec` argument loop (sh.c:634):
does the next token start with one of `|`, `)`, `&`, `;`? -/
def peekStop : List Tok → Bool
  | Tok.pipe :: _ => true
  | Tok.rparen :: _ => true
  | Tok.amp :: _ => true
  | Tok.semi :: _ => true
  | _ => false

/-- `parseredirs` (sh.c:577-600), with the built `redircmd` wrappers
returned as a collected list (see the module comment): while the next
token is `<`, `>` or `>>`, consume it, require a word (the filename,
else `panic("missing file for redirection")`), and record the
redirection with the flags and descriptor of sh.c:588-596. -/
def parseredirs : List Tok → Except String (List Redir × List Tok)
  | Tok.lt :: Tok.word w :: ts =>
    match parseredirs ts with
    | .error e => .error e
    | .ok (rs, ts') => .ok (⟨w, O_RDONLY, 0⟩ :: rs, ts')
  | Tok.lt :: _ => .error "missing file for redirection"
  | Tok.gt :: Tok.word w :: ts =>
    match parseredirs ts with
    | .error e => .error e
    | .ok (rs, ts') => .ok (⟨w, mode_gt, 1⟩ :: rs, ts')
  | Tok.gt :: _ => .error "missing file for redirection"
  | Tok.gtgt :: Tok.word w :: ts =>
    match parseredirs ts with
    | .error e => .error e
    | .ok (rs, ts') => .ok (⟨w, mode_gtgt, 1⟩ :: rs, ts')
  | Tok.gtgt :: _ => .error "missing file for redirection"
  | ts => .ok ([], ts)

/-- The argument loop of `parseexec` (sh.c:634-645): while the next
token is not one of `|)&;`, read a token; end of input breaks the loop;
a non-word token is `panic("syntax")`; a word is appended to argv, and
storing the `MAXARGS`-th argument is `panic("too many args")`;
redirections may follow each argument (`parseredirs` re-runs after each
one).  Fuel decreases once per loop iteration; each iteration consumes
at least the word token, so `ts.length + 1` fuel always suffices. -/
def execLoop : Nat → List (List Char) → List Redir → List Tok →
    Except String (List (List Char) × List Redir × List Tok)
  | 0, _, _, _ => .error "fuel"
  | fuel + 1, argv, rs, ts =>
    if peekStop ts then .ok (argv, rs, ts)
    else
      match ts with
      | [] => .ok (argv, rs, [])
      | Tok.word w :: ts1 =>
        if MAXARGS ≤ (argv ++ [w]).length then .error "too many args"
        else
          match parseredirs ts1 with
          | .error e => .error e
          | .ok (rs2, ts2) => execLoop fuel (argv ++ [w]) (rs ++ rs2) ts2
      | _ :: _ => .error "syntax"

/-- The `&` loop of `parseline` (sh.c:553-556): each trailing `&` wraps
the already-built command in one more `backcmd` layer. -/
def ampLoopGo : Cmd → List Tok → Cmd × List Tok
  | c, Tok.amp :: ts => ampLoopGo (Cmd.backcmd c) ts
  | c, ts => (c, ts)

mutual

/-- `parseline` (sh.c:547-562): parse a pipeline, wrap it in one
`backcmd` per trailing `&`, then optionally `;` and a further line. -/
def parseline : Nat → List Tok → Except String (Cmd × List Tok)
  | 0, _ => .error "fuel"
  | fuel + 1, ts =>
    match parsepipe fuel ts with
    | .error e => .error e
    | .ok (c, ts1) =>
      match ampLoopGo c ts1 with
      | (c2, ts2) =>
        match ts2 with
        | Tok.semi :: ts3 =>
          match parseline fuel ts3 with
          | .error e => .error e
          | .ok (c3, ts4) => .ok (Cmd.listcmd c2 c3, ts4)
        | _ => .ok (c2, ts2)

/-- `parsepipe` (sh.c:564-575): parse an exec unit; on `|`, recurse
right. -/
def parsepipe : Nat → List Tok → Except String (Cmd × List Tok)
  | 0, _ => .error "fuel"
  | fuel + 1, ts =>
    match parseexec fuel ts with
    | .error e => .error e
    | .ok (c, ts1) =>
      match ts1 with
      | Tok.pipe :: ts2 =>
        match parsepipe fuel ts2 with
        | .error e => .error e
        | .ok (r, ts3) => .ok (Cmd.pipecmd c r, ts3)
      | _ => .ok (c, ts1)

/-- `parseexec` (sh.c:618-649): a parenthesized block, or an `execcmd`
whose argv and surrounding redirections the loop accumulates. -/
def parseexec : Nat → List Tok → Except String (Cmd × List Tok)
  | 0, _ => .error "fuel"
  | fuel + 1, ts =>
    match ts with
    | Tok.lparen :: _ => parseblock fuel ts
    | _ =>
      match parseredirs ts with
      | .error e => .error e
      | .ok (rs0, ts0) =>
        match execLoop (ts0.length + 1) [] rs0 ts0 with
        | .error e => .error e
        | .ok (argv, rs, ts1) => .ok (applyRedirs (Cmd.execcmd argv false) rs, ts1)

/-- `parseblock` (sh.c:602-616): `(`, a line, `)` (else
`panic("syntax - missing )")`), then redirections applying to the whole
group. -/
def parseblock : Nat → List Tok → Except String (Cmd × List Tok)
  | 0, _ => .error "fuel"
  | fuel + 1, ts =>
    match ts with
    | Tok.lparen :: ts1 =>
      match parseline fuel ts1 with
      | .error e => .error e
      | .ok (c, ts2) =>
        match ts2 with
        | Tok.rparen :: ts3 =>
          match parseredirs ts3 with
          | .error e => .error e
          | .ok (rs, ts4) => .ok (applyRedirs c rs, ts4)
        | _ => .error "syntax - missing )"
    | _ => .error "parseblock"

end

/-- `parsecmd` (sh.c:530-545): tokenize, parse a line, and fail
(`panic("syntax")` after printing the leftovers) unless the whole input
was consumed.  `nulterminate` is the identity at this level - its only
job is writing string terminators into the scanned buffer.  The fuel
`4 * tokens + 4` dominates the recursion depth: at most three
productions nest without consuming a token, and every further descent
consumes at least one. -/
def parsecmd (s : List Char) : Except String Cmd :=
  match parseline (4 * (tokenize (s.length + 1) s).length + 4) (tokenize (s.length + 1) s) with
  | .error e => .error e
  | .ok (c, ts') =>
    match ts' with
    | [] => .ok c
    | _ => .error "syntax"

/-- Is this node a `struct execcmd` (`cmd->type == EXEC`)? -/
def isExec : Cmd → Bool
  | Cmd.execcmd _ _ => true
  | _ => false

/-- The `back` flag of an `execcmd`; `false` on every other node. -/
def backFlag : Cmd → Bool
  | Cmd.execcmd _ b => b
  | _ => false

/-- `if(type == EXEC) ((struct execcmd*)c)->back = 1;` - set the
background flag when the node is an `execcmd`, leave anything else
untouched (sh.c:272-277). -/
def setBackExec : Cmd → Cmd
  | Cmd.execcmd argv _ => Cmd.execcmd argv true
  | c => c

/-- The shallow marking pass of `runcmd`'s `BACK` case (sh.c:266-278):
an `execcmd` child gets `back = 1`; a `pipecmd` child gets `back = 1`
on each side that is an `execcmd`; every other child is untouched. -/
def shallowMark : Cmd → Cmd
  | Cmd.execcmd argv _ => Cmd.execcmd argv true
  | Cmd.pipecmd l r => Cmd.pipecmd (setBackExec l) (setBackExec r)
  | c => c

/-- Structural size of a command tree (for termination of `resolve` and
`runcmdSh`; marking never changes it). -/
def csize : Cmd → Nat
  | Cmd.execcmd _ _ => 1
  | Cmd.redircmd c _ _ _ => csize c + 1
  | Cmd.pipecmd l r => csize l + csize r + 1
  | Cmd.listcmd l r => csize l + csize r + 1
  | Cmd.backcmd c => csize c + 1

/-- The tree that `runcmd` eventually dispatches on, with its final
background flags: `runcmd`'s `BACK` case applies `shallowMark` to the
wrapped child and recurses into it (sh.c:266-281); any other node is
dispatched directly. -/
def resolve : Cmd → Cmd
  | Cmd.backcmd c => resolve (shallowMark c)
  | c => c
termination_by c => csize c
decreasing_by
  have h : ∀ d : Cmd, csize (setBackExec d) = csize d := fun d => by
    cases d <;> rfl
  cases c <;> simp only [shallowMark, csize, h] <;> omega

/-- `add_job` (sh.c:62-69): store the pid in the first free (zero) slot;
if every slot is occupied the loop falls off the end and the table is
unchanged, with no report. -/
def add_job (pid : Nat) : List Nat → List Nat
  | [] => []
  | x :: xs => if x = 0 then pid :: xs else x :: add_job pid xs

/-- `remove_job` (sh.c:72-79): zero the first slot holding the pid. -/
def remove_job (pid : Nat) : List Nat → List Nat
  | [] => []
  | x :: xs => if x = pid then 0 :: xs else x :: remove_job pid xs

/-- `is_bg_job` (sh.c:82-89): is the pid in the table? -/
def is_bg_job (pid : Nat) : List Nat → Bool
  | [] => false
  | x :: xs => if x = pid then true else is_bg_job pid xs

/-- `reap_background_job` (sh.c:101-106): when the reaped pid is a
tracked background job, remove it and print one
`[bg <pid>] exited with status <status>` notice (returned here as the
list of `(pid, status)` notices printed, so "no notice" is `[]`). -/
def reap_background_job (pid status : Nat) (jobs : List Nat) :
    List Nat × List (Nat × Nat) :=
  if is_bg_job pid jobs then (remove_job pid jobs, [(pid, status)])
  else (jobs, [])

/-- `wait_for_foreground` (sh.c:119-134) over an explicit stream of wait
results: the list of `(pid, status)` pairs successive `wait` calls
return, the empty list standing for `wait` returning `-1` (no children
left).  Returns the final job table, the completion notices printed in
order, and whether the loop ended by reaping the foreground pid. -/
def wait_for_foreground (fg : Nat) :
    List (Nat × Nat) → List Nat → List Nat × List (Nat × Nat) × Bool
  | [], jobs => (jobs, [], false)
  | (p, st) :: rest, jobs =>
    if p = fg then (jobs, [], true)
    else
      match reap_background_job p st jobs with
      | (jobs1, notes1) =>
        match wait_for_foreground fg rest jobs1 with
        | (jobs2, notes2, fgdone) => (jobs2, notes1 ++ notes2, fgdone)

/-- `reap_zombies` (sh.c:109-115) over the stream of already-exited
children that successive non-blocking waits return. -/
def reap_zombies : List (Nat × Nat) → List Nat → List Nat × List (Nat × Nat)
  | [], jobs => (jobs, [])
  | (p, st) :: ws, jobs =>
    match reap_background_job p st jobs with
    | (jobs1, notes1) =>
      match reap_zombies ws jobs1 with
      | (jobs2, notes2) => (jobs2, notes1 ++ notes2)

/-- The `is_background` computation of `runcmd`'s `PIPE` case
(sh.c:246-250): read the flag off the left child if it is an `execcmd`,
else off the right child if that is an `execcmd`, else foreground. -/
def pipeExecBack (l r : Cmd) : Bool :=
  if isExec l then backFlag l
  else if isExec r then backFlag r
  else false

/-- The specification's phrasing of pipeline background determination:
the pipeline is background if either immediate child is an `execcmd`
marked background. -/
def eitherExecBack (l r : Cmd) : Bool :=
  (isExec l && backFlag l) || (isExec r && backFlag r)

/-- The parent's dispatch in `runcmd`'s `PIPE` case after both forks
(sh.c:252-263): if background, `add_job(pid_left); add_job(pid_right)`
and print only `[pid_left]`; else wait for the left then the right
child via the foreground-wait protocol.  Returns the job table, the
pids printed as job identifiers, and the pids awaited, in order. -/
def runPipeParent (l r : Cmd) (pidL pidR : Nat) (jobs : List Nat) :
    List Nat × List Nat × List Nat :=
  if pipeExecBack l r then (add_job pidR (add_job pidL jobs), [pidL], [])
  else (jobs, [], [pidL, pidR])

/-- No `back` flag is set anywhere in the tree - the state of every
tree the parser produces (`execcmd()` zero-initializes the node,
sh.c:403-405, and no parse function sets `back`). -/
def noBack : Cmd → Bool
  | Cmd.execcmd _ b => !b
  | Cmd.redircmd c _ _ _ => noBack c
  | Cmd.pipecmd l r => noBack l && noBack r
  | Cmd.listcmd l r => noBack l && noBack r
  | Cmd.backcmd c => noBack c

/-- The children of a `pipecmd` as `runcmd` can encounter them: either
both sides as the shallow marking pass left them, starting from
parser-produced (unmarked) children, or both sides still unmarked (a
pipe executed without an enclosing `&`). -/
def markedPipe (l r : Cmd) : Prop :=
  ∃ l0 r0 : Cmd, noBack l0 = true ∧ noBack r0 = true ∧
    ((l = setBackExec l0 ∧ r = setBackExec r0) ∨ (l = l0 ∧ r = r0))

/-- What the child of `runcmd`'s `EXEC` case does when `exec` returns,
i.e. when image replacement failed (sh.c:179-181): print
`exec <argv[0]> failed` and `exit(0)` - the code's comment reads
"Use 0 for failure". -/
structure ChildExit where
  diag : List Char
  code : Nat
deriving Repr, DecidableEq

/-- The exec-failure branch of the forked child (sh.c:180-181). -/
def execFailChild (argv0 : List Char) : ChildExit :=
  ⟨('e' :: 'x' :: 'e' :: 'c' :: ' ' :: argv0) ++
      [' ', 'f', 'a', 'i', 'l', 'e', 'd', '\n'], 0⟩

/-- The parent's dispatch in `runcmd`'s `EXEC` case (sh.c:185-192). -/
inductive ParentAct where
  | background (pid : Nat)
  | waitFg (pid : Nat)
deriving Repr, DecidableEq

/-- `if(ecmd->back){ add_job(pid); printf(...); } else
wait_for_foreground(pid);` (sh.c:185-192). -/
def execParent (back : Bool) (pid : Nat) : ParentAct :=
  if back then ParentAct.background pid else ParentAct.waitFg pid

/-- The interpreter process's bindings of descriptors 0 and 1
(`none` = closed). -/
structure ShState where
  fd0 : Option (List Char)
  fd1 : Option (List Char)
deriving Repr, DecidableEq

/-- Rebind descriptor 0 or 1. -/
def setFd (s : ShState) (fd : Nat) (v : Option (List Char)) : ShState :=
  if fd = 0 then { s with fd0 := v } else { s with fd1 := v }

/-- xv6's `open` returns the lowest-numbered closed descriptor of the
calling process (descriptors above 1 are outside the modelled state). -/
def allocFd (s : ShState) : Nat :=
  if s.fd0 = none then 0 else if s.fd1 = none then 1 else 2

def cdWord : List Char := ['c', 'd']

def jobsWord : List Char := ['j', 'o', 'b', 's']

/-- The effect of `runcmd` (sh.c:138-286) on the interpreter's own
process: its descriptor-0/1 state, and whether `runcmd` reaches an
`exit` in this process (`main` calls `runcmd` without forking,
sh.c:365).  `env f m` is the open oracle: does `open(f, m)` succeed?
Child-side behavior is modelled separately (`execFailChild`,
`runPipeParent`, `wait_for_foreground`); neither forking, waiting nor
printing changes this process's descriptors. -/
def runcmdSh (env : List Char → OMode → Bool) : Cmd → ShState → ShState × Option Nat
  | Cmd.execcmd [] _, s => (s, some 1)
  | Cmd.execcmd (a :: _) _, s =>
    if a = cdWord then (s, none)
    else if a = jobsWord then (s, none)
    else (s, none)
  | Cmd.redircmd c f m fd, s =>
    let s1 := setFd s fd none
    if env f m then runcmdSh env c (setFd s1 (allocFd s1) (some f))
    else (s1, none)
  | Cmd.listcmd l r, s =>
    match runcmdSh env l s with
    | (s1, some code) => (s1, some code)
    | (s1, none) => runcmdSh env r s1
  | Cmd.pipecmd _ _, s => (s, none)
  | Cmd.backcmd c, s => runcmdSh env (shallowMark c) s
termination_by c _ => csize c
decreasing_by
  · simp only [csize]; omega
  · simp only [csize]; omega
  · simp only [csize]; omega
  · have h : ∀ d : Cmd, csize (setBackExec d) = csize d := fun d => by
      cases d <;> rfl
    cases c <;> simp only [shallowMark, csize, h] <;> omega

/-- The read loop of `getcmd` (sh.c:301-311): read characters until a
newline (consumed, not stored), end of input, or `nbuf-1` stored
characters.  Returns the buffer and the unread remainder. -/
def getcmdLoop : Nat → List Char → List Char × List Char
  | _, [] => ([], [])
  | 0, input => ([], input)
  | n + 1, c :: cs =>
    if c = '\n' then ([], cs)
    else
      match getcmdLoop n cs with
      | (b, r) => (c :: b, r)

/-- `getcmd` (sh.c:288-318) with `nbuf = 100` (sh.c:323): `none` models
the `-1` return, taken when the first read fails (end of input) and
also when the buffer is empty after reading - which is exactly what an
empty input line produces, since the newline is not stored. -/
def getcmd (input : List Char) : Option (List Char × List Char) :=
  match input with
  | [] => none
  | _ =>
    match getcmdLoop 99 input with
    | (buf, rest) => if buf = [] then none else some (buf, rest)

/-- How one shell session ends (`main`, sh.c:343-373): loop break on
`getcmd < 0` followed by `exit(0)`; an `exit` reached inside the
unforked `runcmd`; or a parse `panic` (which prints and `exit(1)`s). -/
inductive ShellExit where
  | eofExit
  | runExit (code : Nat)
  | parseErr (msg : String)
deriving Repr, DecidableEq

/-- The `while(1)` loop of `main` (sh.c:343-371), threading the
interpreter's descriptor state from line to line - nothing restores it
between iterations.  The dead test `buf[0] == '\n' || buf[0] == 0`
(sh.c:361) is kept as written; `reap_zombies` after a line touches only
the job table, not the descriptor state.  Fuel bounds the number of
iterations; each `some` result of `getcmd` consumed at least one input
character, so `input.length + 1` always suffices. -/
def shellLoop (env : List Char → OMode → Bool) :
    Nat → List Char → ShState → ShellExit
  | 0, _, _ => ShellExit.eofExit
  | fuel + 1, input, s =>
    match getcmd input with
    | none => ShellExit.eofExit
    | some (buf, rest) =>
      if buf.head? == some '\n' || buf == [] then shellLoop env fuel rest s
      else
        match parsecmd buf with
        | .error e => ShellExit.parseErr e
        | .ok c =>
          match runcmdSh env c s with
          | (_, some code) => ShellExit.runExit code
          | (s', none) => shellLoop env fuel rest s'

def console : List Char := ['c', 'o', 'n', 's', 'o', 'l', 'e']

/-- The interpreter's initial descriptor state: 0 and 1 on the console. -/
def st0 : ShState := ⟨some console, some console⟩

/-- An open oracle under which every `open` succeeds. -/
def envAll : List Char → OMode → Bool := fun _ _ => true

/-! ## Theorems -/

/-- C5: executing a Background node performs exactly one shallow marking
pass before recursing into the wrapped subtree (last conjunct): the pass
sets the background flag on the wrapped command if it is an Exec, or on
each side of a directly-wrapped Pipe that is an Exec; for every other
wrapped node kind - Sequence (`listcmd`), Redirect, another Background -
the pass changes nothing anywhere in the subtree. -/
theorem back_marking_shallow :
    (∀ argv b, shallowMark (Cmd.execcmd argv b) = Cmd.execcmd argv true) ∧
    (∀ l r, shallowMark (Cmd.pipecmd l r) =
        Cmd.pipecmd (setBackExec l) (setBackExec r)) ∧
    (∀ argv b, setBackExec (Cmd.execcmd argv b) = Cmd.execcmd argv true) ∧
    (∀ c, isExec c = false → setBackExec c = c) ∧
    (∀ l r, shallowMark (Cmd.listcmd l r) = Cmd.listcmd l r) ∧
    (∀ c f m fd, shallowMark (Cmd.redircmd c f m fd) = Cmd.redircmd c f m fd) ∧
    (∀ c, shallowMark (Cmd.backcmd c) = Cmd.backcmd c) ∧
    (∀ c, resolve (Cmd.backcmd c) = resolve (shallowMark c)) := by
  refine ⟨fun _ _ => rfl, fun _ _ => rfl, fun _ _ => rfl, ?_, fun _ _ => rfl,
    fun _ _ _ _ => rfl, fun _ => rfl, fun c => ?_⟩
  · intro c h
    cases c <;> simp_all [isExec, setBackExec]
  · rw [resolve]

/-- C5 witness: the marking pass leaves a directly-wrapped Sequence
untouched. -/
theorem back_marking_shallow_witness :
    setBackExec (Cmd.listcmd (Cmd.execcmd [['a']] false) (Cmd.execcmd [['b']] false)) =
      Cmd.listcmd (Cmd.execcmd [['a']] false) (Cmd.execcmd [['b']] false) :=
  back_marking_shallow.2.2.2.1
    (Cmd.listcmd (Cmd.execcmd [['a']] false) (Cmd.execcmd [['b']] false)) rfl

/-- C8: background marking is idempotent: `cmd & &` parses to a double
`backcmd` wrapping (third conjunct), the parser's `&` loop wraps once
per `&` (second conjunct), and the double wrapping dispatches exactly
the tree the single wrapping dispatches, with the same leaves marked
background (first conjunct) - the outer `BACK` case finds a `backcmd`
child, which the shallow pass leaves untouched. -/
theorem double_amp_idempotent :
    (∀ c, resolve (Cmd.backcmd (Cmd.backcmd c)) = resolve (Cmd.backcmd c)) ∧
    (∀ c ts, ampLoopGo c (Tok.amp :: Tok.amp :: ts) =
        ampLoopGo (Cmd.backcmd (Cmd.backcmd c)) ts) ∧
    parsecmd ('x' :: ' ' :: '&' :: ' ' :: '&' :: []) =
      Except.ok (Cmd.backcmd (Cmd.backcmd (Cmd.execcmd [['x']] false))) := by
  refine ⟨fun c => ?_, fun c ts => rfl, rfl⟩
  conv_lhs => rw [resolve]
  rfl

/-- C4: for a Pipe node whose children are as the shallow marking pass
left them (starting from parser-produced, unmarked children) or still
unmarked, the code's background determination (left side first, else
right, sh.c:246-250) agrees with the spec's "either side is an Exec
marked background"; when background, both child pids enter the job
table (left first) and only the left pid is printed, with no waiting;
otherwise the parent waits for left then right. -/
theorem pipe_background_dispatch (l r : Cmd) (pidL pidR : Nat) (jobs : List Nat)
    (h : markedPipe l r) :
    pipeExecBack l r = eitherExecBack l r ∧
    (eitherExecBack l r = true →
      runPipeParent l r pidL pidR jobs =
        (add_job pidR (add_job pidL jobs), [pidL], [])) ∧
    (eitherExecBack l r = false →
      runPipeParent l r pidL pidR jobs = (jobs, [], [pidL, pidR])) := by
  unfold markedPipe at h
  obtain ⟨l0, r0, hl0, hr0, hcase⟩ := h
  have heq : pipeExecBack l r = eitherExecBack l r := by
    cases l0 <;> cases r0 <;>
      rcases hcase with ⟨hl, hr⟩ | ⟨hl, hr⟩ <;> subst hl <;> subst hr <;>
        simp_all [pipeExecBack, eitherExecBack, setBackExec, isExec, backFlag, noBack]
  refine ⟨heq, fun hbg => ?_, fun hbg => ?_⟩ <;>
    simp [runPipeParent, heq, hbg]

/-- C4 witness: a marked `a | b` pipeline is dispatched background -
both pids recorded, only the left printed, no waiting. -/
theorem pipe_background_dispatch_witness :
    runPipeParent (Cmd.execcmd [['a']] true) (Cmd.execcmd [['b']] true) 5 6 [0, 0] =
      (add_job 6 (add_job 5 [0, 0]), [5], []) :=
  (pipe_background_dispatch (Cmd.execcmd [['a']] true) (Cmd.execcmd [['b']] true) 5 6 [0, 0]
    ⟨Cmd.execcmd [['a']] false, Cmd.execcmd [['b']] false, rfl, rfl,
      Or.inl ⟨rfl, rfl⟩⟩).2.1 rfl

/-- C3 counterexample: when `exec` fails, the child exits with status 0
(sh.c:181, whose comment reads "Use 0 for failure") - the claimed
non-zero exit status is false. -/
theorem exec_fail_zero_status : ¬ (execFailChild ['l', 's']).code ≠ 0 := by
  decide

/-- C3 (amended): when the child's image replacement fails it prints
`exec <argv[0]> failed` and exits with status 0 - the conventional
success status, not distinct from a normal run; the parent interpreter
is unaffected and proceeds to wait on the child via the foreground-wait
protocol. -/
theorem exec_fail_child_parent (argv0 : List Char) (pid : Nat) :
    (execFailChild argv0).code = 0 ∧
    (execFailChild argv0).diag =
      ('e' :: 'x' :: 'e' :: 'c' :: ' ' :: argv0) ++
        [' ', 'f', 'a', 'i', 'l', 'e', 'd', '\n'] ∧
    execParent false pid = ParentAct.waitFg pid :=
  ⟨rfl, rfl, rfl⟩

/-- C6 counterexample: `>>` is parsed with mode `O_WRONLY|O_CREATE`
(sh.c:594-595) - write and create only; the produced mode carries no
append flag (sh.c names none), contradicting the claim that `>>` opens
with append. -/
theorem gtgt_no_append :
    parseredirs [Tok.gtgt, Tok.word ['f']] =
      Except.ok ([⟨['f'], ⟨true, true, false, false⟩, 1⟩], []) ∧
    ¬ ((⟨true, true, false, false⟩ : OMode).append = true) :=
  ⟨rfl, by decide⟩

/-- C6 (amended): `<` opens the target read-only on descriptor 0; `>`
write-only with create-if-absent and truncate on descriptor 1; `>>`
write-only with create-if-absent on descriptor 1, with no truncate flag
and no append flag (the flag set differs from `>` only by omitting
truncate). -/
theorem redirect_open_flags (w : List Char) :
    parseredirs [Tok.lt, Tok.word w] =
      Except.ok ([⟨w, ⟨false, false, false, false⟩, 0⟩], []) ∧
    parseredirs [Tok.gt, Tok.word w] =
      Except.ok ([⟨w, ⟨true, true, true, false⟩, 1⟩], []) ∧
    parseredirs [Tok.gtgt, Tok.word w] =
      Except.ok ([⟨w, ⟨true, true, false, false⟩, 1⟩], []) :=
  ⟨rfl, rfl, rfl⟩

/-- C7 counterexample: a simple command with exactly MAXARGS = 10
arguments - a count that does not exceed MAXARGS - is already rejected
at parse time (`panic("too many args")` fires when `argc` reaches
MAXARGS after storing an argument, sh.c:641-643), while 9 = MAXARGS - 1
arguments parse fine: the argv array cannot hold MAXARGS arguments, its
last slot being reserved for the terminator. -/
theorem maxargs_boundary :
    parsecmd ("a b c d e f g h i j".toList) = Except.error "too many args" ∧
    parsecmd ("a b c d e f g h i".toList) =
      Except.ok (Cmd.execcmd
        [['a'], ['b'], ['c'], ['d'], ['e'], ['f'], ['g'], ['h'], ['i']] false) :=
  ⟨rfl, rfl⟩

/-- C7 (amended): an Exec's argv holds at most MAXARGS - 1 arguments
(the MAXARGS-slot array reserves one slot for the terminating null
entry); every simple command whose argument count reaches or exceeds
MAXARGS fails fatally at parse time, in `parseexec`'s argument loop,
before anything executes; and no argument-count check exists at exec
time - `runcmd`'s EXEC case runs regardless of argv length. -/
theorem maxargs_parse_limit :
    (∀ fuel argv0 rs0 ts argv rs ts',
      argv0.length < MAXARGS →
      execLoop fuel argv0 rs0 ts = Except.ok (argv, rs, ts') →
      argv.length ≤ MAXARGS - 1) ∧
    (∀ (ws : List (List Char)) fuel argv0 rs0 ts,
      1 ≤ ws.length → MAXARGS ≤ argv0.length + ws.length →
      argv0.length < MAXARGS → ws.length ≤ fuel →
      execLoop fuel argv0 rs0 (ws.map Tok.word ++ ts) =
        Except.error "too many args") ∧
    (∀ env a as b s, runcmdSh env (Cmd.execcmd (a :: as) b) s = (s, none)) := by
  refine ⟨?_, ?_, ?_⟩
  · intro fuel
    induction fuel with
    | zero =>
      intro argv0 rs0 ts argv rs ts' hlt hE
      simp [execLoop] at hE
    | succ n ih =>
      intro argv0 rs0 ts argv rs ts' hlt hE
      simp only [execLoop] at hE
      split at hE
      · simp only [Except.ok.injEq, Prod.mk.injEq] at hE
        obtain ⟨h1, -, -⟩ := hE
        subst h1
        omega
      · split at hE
        · simp only [Except.ok.injEq, Prod.mk.injEq] at hE
          obtain ⟨h1, -, -⟩ := hE
          subst h1
          omega
        · rename_i w ts1
          split at hE
          · exact absurd hE (by simp)
          · rename_i hcap
            split at hE
            · exact absurd hE (by simp)
            · refine ih _ _ _ _ _ _ ?_ hE
              simp only [not_le, List.length_append, List.length_cons,
                List.length_nil] at hcap
              simp only [List.length_append, List.length_cons, List.length_nil]
              omega
        · exact absurd hE (by simp)
  · intro ws
    induction ws with
    | nil => intro fuel argv0 rs0 ts h1; simp at h1
    | cons w ws' ih =>
      intro fuel argv0 rs0 ts h1 h2 h3 h4
      obtain ⟨f, rfl⟩ : ∃ f, fuel = f + 1 := by
        cases fuel with
        | zero => simp at h4
        | succ f => exact ⟨f, rfl⟩
      simp only [List.map_cons, List.cons_append, execLoop, peekStop]
      by_cases hcap : MAXARGS ≤ (argv0 ++ [w]).length
      · simp only [List.length_append, List.length_cons, List.length_nil] at hcap
        simp [hcap]
      · have hws' : 1 ≤ ws'.length := by
          simp only [not_le, List.length_append, List.length_cons,
            List.length_nil] at hcap
          simp only [List.length_cons] at h2
          omega
        obtain ⟨w', ws''⟩ : ∃ w' ws'', ws' = w' :: ws'' := by
          cases ws' with
          | nil => simp at hws'
          | cons a l => exact ⟨a, l, rfl⟩
        obtain ⟨ws'', rfl⟩ := ws''
        rw [if_neg hcap]
        simp only [List.map_cons, List.cons_append]
        have hred : parseredirs (Tok.word w' :: (ws''.map Tok.word ++ ts)) =
            Except.ok ([], Tok.word w' :: (ws''.map Tok.word ++ ts)) := rfl
        rw [hred]
        have := ih f (argv0 ++ [w]) (rs0 ++ []) ts (by simp)
          (by simp only [List.length_append, List.length_cons, List.length_nil,
                List.length_cons] at h2 ⊢
              omega)
          (by simp only [not_le, List.length_append, List.length_cons,
                List.length_nil] at hcap
              simp only [List.length_append, List.length_cons, List.length_nil]
              omega)
          (by simp only [List.length_cons] at h4 ⊢
              omega)
        simpa using this
  · intro env a as b s
    simp only [runcmdSh]
    split
    · rfl
    · split <;> rfl

/-- C7 witness: ten one-letter arguments overflow the loop. -/
theorem maxargs_parse_limit_witness :
    execLoop 10 [] [] ((List.replicate 10 ['a']).map Tok.word ++ []) =
      Except.error "too many args" :=
  maxargs_parse_limit.2.1 (List.replicate 10 ['a']) 10 [] [] []
    (by decide) (by decide) (by decide) (by decide)

/-- C2 (behavior at the failing inputs): `main` calls `runcmd` without
forking (sh.c:365), so on a line holding only a space the degenerate
empty Exec reaches `runcmd`'s `exit(1)` (sh.c:159-160) and the whole
interpreter terminates with status 1 instead of silently continuing;
and on an entirely empty line `getcmd` finds `buf[0] == 0` (the newline
is not stored) and returns -1 (sh.c:314-315), so the session ends as if
at end of input, never reaching the main loop's own empty-line test
(sh.c:361), and the following lines are never read. -/
theorem whitespace_line_kills_shell :
    shellLoop envAll 2 (' ' :: '\n' :: ['l', 's']) st0 = ShellExit.runExit 1 ∧
    getcmd ('\n' :: ['l', 's']) = none ∧
    shellLoop envAll 2 ('\n' :: ['l', 's']) st0 = ShellExit.eofExit ∧
    parsecmd [' '] = Except.ok (Cmd.execcmd [] false) ∧
    runcmdSh envAll (Cmd.execcmd [] false) st0 = (st0, some 1) := by
  refine ⟨?_, rfl, rfl, rfl, ?_⟩
  · simp [shellLoop, getcmd, getcmdLoop, parsecmd, tokenize, gettoken, skipWs,
      isWs, parseline, parsepipe, parseexec, execLoop, parseredirs, peekStop,
      applyRedirs, ampLoopGo, runcmdSh]
  · simp [runcmdSh]

/-- C9: a Redirect executed outside any Pipe runs in the interpreter's
own process.  Conjunct 1: on a successful open the named descriptor is
rebound to the target and the wrapped command runs in that state -
nothing ever restores the old binding (the hypothesis on descriptor 0
reflects xv6's `open` returning the lowest closed descriptor).
Conjunct 2: on a failed open the descriptor stays closed and the
wrapped command is skipped.  Conjunct 3: a forked Exec leaves the
parent's descriptors unchanged.  Conjunct 4: the `PIPE` parent closes
both pipe ends it created, leaving 0/1 unchanged.  Conjunct 5: the main
loop hands the state left by one line directly to the next line -
there is no reset between iterations, so the change persists for the
rest of the session. -/
theorem redirect_persists_unforked (env : List Char → OMode → Bool) :
    (∀ f m inner fd s, (fd = 0 ∨ (fd = 1 ∧ s.fd0 ≠ none)) → env f m = true →
      runcmdSh env (Cmd.redircmd inner f m fd) s =
        runcmdSh env inner (setFd s fd (some f))) ∧
    (∀ f m inner fd s, env f m = false →
      runcmdSh env (Cmd.redircmd inner f m fd) s = (setFd s fd none, none)) ∧
    (∀ a as b s, runcmdSh env (Cmd.execcmd (a :: as) b) s = (s, none)) ∧
    (∀ l r s, runcmdSh env (Cmd.pipecmd l r) s = (s, none)) ∧
    (∀ fuel input buf rest c s s',
      getcmd input = some (buf, rest) →
      (buf.head? == some '\n' || buf == []) = false →
      parsecmd buf = Except.ok c →
      runcmdSh env c s = (s', none) →
      shellLoop env (fuel + 1) input s = shellLoop env fuel rest s') := by
  refine ⟨?_, ?_, ?_, ?_, ?_⟩
  · intro f m inner fd s hfd henv
    obtain ⟨sf0, sf1⟩ := s
    rcases hfd with rfl | ⟨rfl, h0⟩
    · simp [runcmdSh, henv, setFd, allocFd]
    · obtain ⟨d, rfl⟩ : ∃ d, sf0 = some d := by
        cases sf0 with
        | none => exact absurd rfl h0
        | some d => exact ⟨d, rfl⟩
      simp [runcmdSh, henv, setFd, allocFd]
  · intro f m inner fd s henv
    simp [runcmdSh, henv]
  · intro a as b s
    simp only [runcmdSh]
    split
    · rfl
    · split <;> rfl
  · intro l r s
    simp [runcmdSh]
  · intro fuel input buf rest c s s' hget hne hparse hrun
    simp only [shellLoop, hget, hne, hparse, hrun]
    simp

/-- C9 witness: a successful `> o` rebinds descriptor 1 of the
interpreter itself and the wrapped command runs in the changed state. -/
theorem redirect_persists_unforked_witness :
    runcmdSh envAll (Cmd.redircmd (Cmd.execcmd [['e']] false) ['o'] mode_gt 1) st0 =
      runcmdSh envAll (Cmd.execcmd [['e']] false) (setFd st0 1 (some ['o'])) :=
  (redirect_persists_unforked envAll).1 ['o'] mode_gt (Cmd.execcmd [['e']] false) 1 st0
    (Or.inr ⟨rfl, by simp [st0, console]⟩) rfl

theorem is_bg_job_iff (pid : Nat) (jobs : List Nat) :
    is_bg_job pid jobs = true ↔ pid ∈ jobs := by
  induction jobs with
  | nil => simp [is_bg_job]
  | cons x xs ih =>
    by_cases h : x = pid
    · subst h
      simp [is_bg_job]
    · simp [is_bg_job, h, ih, Ne.symm h]

theorem count_remove_self (B : Nat) (jobs : List Nat) (hB : B ≠ 0)
    (h : jobs.count B = 1) : (remove_job B jobs).count B = 0 := by
  induction jobs with
  | nil => simp at h
  | cons x xs ih =>
    by_cases hx : x = B
    · subst hx
      simp only [remove_job, if_true, eq_self_iff_true]
      rw [List.count_cons_self] at h
      rw [List.count_cons_of_ne hB]
      omega
    · simp only [remove_job, if_neg hx]
      rw [List.count_cons_of_ne (Ne.symm hx)] at h ⊢
      exact ih h

theorem count_remove_other (p B : Nat) (jobs : List Nat) (hpB : p ≠ B)
    (hB : B ≠ 0) : (remove_job p jobs).count B = jobs.count B := by
  induction jobs with
  | nil => rfl
  | cons x xs ih =>
    by_cases hx : x = p
    · subst hx
      simp only [remove_job, if_true, eq_self_iff_true]
      rw [List.count_cons_of_ne hB, List.count_cons_of_ne (Ne.symm hpB)]
    · simp only [remove_job, if_neg hx, List.count_cons, ih]

theorem reap_no_B (p st B : Nat) (jobs : List Nat) (hB : B ≠ 0)
    (h : jobs.count B = 0) :
    (reap_background_job p st jobs).1.count B = 0 ∧
    ((reap_background_job p st jobs).2.filter (fun q => q.1 == B)).length = 0 := by
  by_cases hpB : p = B
  · subst hpB
    have hbg : is_bg_job p jobs = false := by
      cases hb : is_bg_job p jobs
      · rfl
      · have := (is_bg_job_iff p jobs).mp hb
        rw [← List.count_pos_iff] at this
        omega
    simp [reap_background_job, hbg, h]
  · by_cases hbg : is_bg_job p jobs = true
    · simp [reap_background_job, hbg, count_remove_other p B jobs hpB hB, h, hpB]
    · simp only [Bool.not_eq_true] at hbg
      simp [reap_background_job, hbg, h]

theorem wff_after (fg B s : Nat) (rest : List (Nat × Nat)) :
    ∀ (pre : List (Nat × Nat)) (jobs : List Nat),
      (∀ q ∈ pre, q.1 ≠ fg) → B ≠ 0 → jobs.count B = 0 →
      (wait_for_foreground fg (pre ++ (fg, s) :: rest) jobs).2.2 = true ∧
      ((wait_for_foreground fg (pre ++ (fg, s) :: rest) jobs).2.1.filter
          (fun q => q.1 == B)).length = 0 ∧
      (wait_for_foreground fg (pre ++ (fg, s) :: rest) jobs).1.count B = 0 := by
  intro pre
  induction pre with
  | nil =>
    intro jobs _ _ h0
    simp [wait_for_foreground, h0]
  | cons q pre' ih =>
    obtain ⟨p, st⟩ := q
    intro jobs hfg hB h0
    have hpfg : p ≠ fg := hfg (p, st) (by simp)
    obtain ⟨hc, hf⟩ := reap_no_B p st B jobs hB h0
    rcases hrb : reap_background_job p st jobs with ⟨jobs1, notes1⟩
    rw [hrb] at hc hf
    simp only at hc hf
    have hih := ih jobs1 (fun q hq => hfg q (List.mem_cons_of_mem _ hq)) hB hc
    rcases hwf : wait_for_foreground fg (pre' ++ (fg, s) :: rest) jobs1 with
      ⟨jobs2, notes2, d⟩
    rw [hwf] at hih
    simp only at hih
    obtain ⟨hd, hn2, hc2⟩ := hih
    simp only [List.cons_append, wait_for_foreground, List.append_eq, if_neg hpfg, hrb, hwf]
    refine ⟨hd, ?_, hc2⟩
    simp only [List.filter_append, List.length_append]
    omega

theorem wff_stops (fg s : Nat) (rest : List (Nat × Nat)) :
    ∀ (pre : List (Nat × Nat)) (jobs : List Nat), (∀ q ∈ pre, q.1 ≠ fg) →
      wait_for_foreground fg (pre ++ (fg, s) :: rest) jobs =
        wait_for_foreground fg (pre ++ [(fg, s)]) jobs := by
  intro pre
  induction pre with
  | nil =>
    intro jobs _
    simp [wait_for_foreground]
  | cons q pre' ih =>
    obtain ⟨p, st⟩ := q
    intro jobs hfg
    have hpfg : p ≠ fg := hfg (p, st) (by simp)
    rcases hrb : reap_background_job p st jobs with ⟨jobs1, notes1⟩
    simp only [List.cons_append, wait_for_foreground, List.append_eq, if_neg hpfg,
      hrb, ih jobs1 (fun q hq => hfg q (List.mem_cons_of_mem _ hq))]


theorem wff_once (fg B s : Nat) (rest : List (Nat × Nat)) :
    ∀ (pre : List (Nat × Nat)) (jobs : List Nat),
      (∀ q ∈ pre, q.1 ≠ fg) → B ≠ fg → B ≠ 0 →
      (pre.filter (fun q => q.1 == B)).length = 1 →
      jobs.count B = 1 →
      (wait_for_foreground fg (pre ++ (fg, s) :: rest) jobs).2.2 = true ∧
      ((wait_for_foreground fg (pre ++ (fg, s) :: rest) jobs).2.1.filter
          (fun q => q.1 == B)).length = 1 ∧
      (wait_for_foreground fg (pre ++ (fg, s) :: rest) jobs).1.count B = 0 := by
  intro pre
  induction pre with
  | nil =>
    intro jobs _ _ _ honce _
    simp at honce
  | cons q pre' ih =>
    obtain ⟨p, st⟩ := q
    intro jobs hfg hBfg hB honce hcount
    have hpfg : p ≠ fg := hfg (p, st) (by simp)
    by_cases hpB : p = B
    · subst hpB
      have honce' : (pre'.filter (fun q => q.1 == p)).length = 0 := by
        simp only [List.filter_cons, beq_self_eq_true, if_true,
          List.length_cons] at honce
        omega
      have hmem : p ∈ jobs := by
        rw [← List.count_pos_iff]
        omega
      have hbg : is_bg_job p jobs = true := (is_bg_job_iff p jobs).mpr hmem
      have hrb : reap_background_job p st jobs = (remove_job p jobs, [(p, st)]) := by
        simp [reap_background_job, hbg]
      have hc1 : (remove_job p jobs).count p = 0 :=
        count_remove_self p jobs hB hcount
      have hih := wff_after fg p s rest pre' (remove_job p jobs)
        (fun q hq => hfg q (List.mem_cons_of_mem _ hq)) hB hc1
      rcases hwf : wait_for_foreground fg (pre' ++ (fg, s) :: rest)
          (remove_job p jobs) with ⟨jobs2, notes2, d⟩
      rw [hwf] at hih
      simp only at hih
      obtain ⟨hd, hn2, hc2⟩ := hih
      simp only [List.cons_append, wait_for_foreground, List.append_eq, if_neg hpfg, hrb, hwf]
      refine ⟨hd, ?_, hc2⟩
      simp only [List.filter_append, List.length_append, List.filter_cons,
        beq_self_eq_true, if_true, List.filter_nil, List.length_cons,
        List.length_nil]
      omega
    · have hb : (p == B) = false := by
        simp [hpB]
      have honce' : (pre'.filter (fun q => q.1 == B)).length = 1 := by
        simp only [List.filter_cons, hb, if_false] at honce
        simpa using honce
      by_cases hbg : is_bg_job p jobs = true
      · have hrb : reap_background_job p st jobs = (remove_job p jobs, [(p, st)]) := by
          simp [reap_background_job, hbg]
        have hcount1 : (remove_job p jobs).count B = 1 := by
          rw [count_remove_other p B jobs hpB hB]
          exact hcount
        have hih := ih (remove_job p jobs)
          (fun q hq => hfg q (List.mem_cons_of_mem _ hq)) hBfg hB honce' hcount1
        rcases hwf : wait_for_foreground fg (pre' ++ (fg, s) :: rest)
            (remove_job p jobs) with ⟨jobs2, notes2, d⟩
        rw [hwf] at hih
        simp only at hih
        obtain ⟨hd, hn2, hc2⟩ := hih
        simp only [List.cons_append, wait_for_foreground, List.append_eq, if_neg hpfg, hrb, hwf]
        refine ⟨hd, ?_, hc2⟩
        simp [List.filter_cons, hpB, hn2]
      · simp only [Bool.not_eq_true] at hbg
        have hrb : reap_background_job p st jobs = (jobs, []) := by
          simp [reap_background_job, hbg]
        have hih := ih jobs
          (fun q hq => hfg q (List.mem_cons_of_mem _ hq)) hBfg hB honce' hcount
        rcases hwf : wait_for_foreground fg (pre' ++ (fg, s) :: rest) jobs with
          ⟨jobs2, notes2, d⟩
        rw [hwf] at hih
        simp only at hih
        obtain ⟨hd, hn2, hc2⟩ := hih
        simp only [List.cons_append, wait_for_foreground, List.append_eq, if_neg hpfg, hrb, hwf]
        refine ⟨hd, ?_, hc2⟩
        simpa using hn2

/-- C1: foreground/background isolation of the wait protocol.  For a
wait-result stream whose entries before the foreground pid `fg` never
equal `fg`, and a background job `B ≠ fg` that is tracked exactly once
in the job table and reaped exactly once before `fg`: the protocol
keeps waiting until `fg` itself is reaped (first and last conjuncts -
the result does not depend on anything after `fg`'s entry), reports
`B`'s exit status as an asynchronous completion notice exactly once
(second conjunct; the notice is emitted by `reap_background_job` at the
moment `B` is reaped, never before), and removes `B` from the job table
(third conjunct). -/
theorem wait_foreground_isolation (fg B s : Nat) (pre rest : List (Nat × Nat))
    (jobs : List Nat)
    (hpre : ∀ q ∈ pre, q.1 ≠ fg) (hBfg : B ≠ fg) (hB0 : B ≠ 0)
    (honce : (pre.filter (fun q => q.1 == B)).length = 1)
    (hjobs : jobs.count B = 1) :
    (wait_for_foreground fg (pre ++ (fg, s) :: rest) jobs).2.2 = true ∧
    ((wait_for_foreground fg (pre ++ (fg, s) :: rest) jobs).2.1.filter
        (fun q => q.1 == B)).length = 1 ∧
    (wait_for_foreground fg (pre ++ (fg, s) :: rest) jobs).1.count B = 0 ∧
    wait_for_foreground fg (pre ++ (fg, s) :: rest) jobs =
      wait_for_foreground fg (pre ++ [(fg, s)]) jobs := by
  obtain ⟨h1, h2, h3⟩ := wff_once fg B s rest pre jobs hpre hBfg hB0 honce hjobs
  exact ⟨h1, h2, h3, wff_stops fg s rest pre jobs hpre⟩

/-- C1 witness: background job 3 (tracked in slot 0) exits before
foreground job 2; the protocol reports it once, removes it, and still
detects 2's completion. -/
theorem wait_foreground_isolation_witness :
    (wait_for_foreground 2 ([(3, 7)] ++ (2, 0) :: [(9, 9)]) [3, 0]).2.2 = true ∧
    ((wait_for_foreground 2 ([(3, 7)] ++ (2, 0) :: [(9, 9)]) [3, 0]).2.1.filter
        (fun q => q.1 == 3)).length = 1 ∧
    (wait_for_foreground 2 ([(3, 7)] ++ (2, 0) :: [(9, 9)]) [3, 0]).1.count 3 = 0 ∧
    wait_for_foreground 2 ([(3, 7)] ++ (2, 0) :: [(9, 9)]) [3, 0] =
      wait_for_foreground 2 ([(3, 7)] ++ [(2, 0)]) [3, 0] :=
  wait_foreground_isolation 2 3 0 [(3, 7)] [(9, 9)] [3, 0]
    (by decide) (by decide) (by decide) (by decide) (by decide)

theorem add_job_length (pid : Nat) :
    ∀ l : List Nat, (add_job pid l).length = l.length := by
  intro l
  induction l with
  | nil => rfl
  | cons x xs ih => by_cases h : x = 0 <;> simp [add_job, h, ih]

theorem add_job_first_free (pid : Nat) : ∀ pre suf : List Nat,
    (∀ x ∈ pre, x ≠ 0) → add_job pid (pre ++ 0 :: suf) = pre ++ pid :: suf := by
  intro pre
  induction pre with
  | nil =>
    intro suf _
    simp [add_job]
  | cons x xs ih =>
    intro suf hx
    have hx0 : x ≠ 0 := hx x (by simp)
    simp only [List.cons_append, add_job, if_neg hx0, List.append_eq]
    rw [ih suf (fun y hy => hx y (List.mem_cons_of_mem _ hy))]

theorem add_job_full (pid : Nat) : ∀ jobs : List Nat,
    (∀ x ∈ jobs, x ≠ 0) → add_job pid jobs = jobs := by
  intro jobs
  induction jobs with
  | nil =>
    intro _
    rfl
  | cons x xs ih =>
    intro h
    have hx0 : x ≠ 0 := h x (by simp)
    simp only [add_job, if_neg hx0]
    rw [ih (fun y hy => h y (List.mem_cons_of_mem _ hy))]

/-- C10: the job table is a fixed-size array - `add_job` never changes
its length (conjunct 1) and fills the first free (zero) slot
(conjunct 2); when every slot is occupied, `add_job`'s loop falls off
the end: the table is unchanged and nothing is reported (conjunct 3),
so a background job launched in that state is never tracked
(conjunct 4) and its later exit is reaped silently - no removal and no
completion notice, whether reaped during a foreground wait or by the
opportunistic reaper (conjuncts 5 and 6). -/
theorem job_table_capacity (jobs : List Nat) (pid st : Nat)
    (hfull : ∀ x ∈ jobs, x ≠ 0) (hnew : pid ∉ jobs) :
    (∀ l : List Nat, (add_job pid l).length = l.length) ∧
    (∀ pre suf : List Nat, (∀ x ∈ pre, x ≠ 0) →
      add_job pid (pre ++ 0 :: suf) = pre ++ pid :: suf) ∧
    add_job pid jobs = jobs ∧
    pid ∉ add_job pid jobs ∧
    reap_background_job pid st (add_job pid jobs) = (add_job pid jobs, []) ∧
    reap_zombies [(pid, st)] (add_job pid jobs) = (add_job pid jobs, []) := by
  have hunch : add_job pid jobs = jobs := add_job_full pid jobs hfull
  have hbg : is_bg_job pid jobs = false := by
    cases hb : is_bg_job pid jobs
    · rfl
    · exact absurd ((is_bg_job_iff pid jobs).mp hb) hnew
  refine ⟨add_job_length pid, add_job_first_free pid, hunch, ?_, ?_, ?_⟩
  · rw [hunch]
    exact hnew
  · rw [hunch]
    simp [reap_background_job, hbg]
  · rw [hunch]
    simp [reap_zombies, reap_background_job, hbg]

/-- C10 witness: with all NPROC slots occupied, adding pid 7 changes
nothing and its exit produces no notice. -/
theorem job_table_capacity_witness :
    add_job 7 (List.replicate NPROC 1) = List.replicate NPROC 1 ∧
    reap_background_job 7 9 (add_job 7 (List.replicate NPROC 1)) =
      (add_job 7 (List.replicate NPROC 1), []) :=
  ⟨(job_table_capacity (List.replicate NPROC 1) 7 9 (by decide) (by decide)).2.2.1,
   (job_table_capacity (List.replicate NPROC 1) 7 9 (by decide) (by decide)).2.2.2.2.1⟩
